import Mathlib

/-!
# Purpose-limitation interceptor

A shallow embedding of `purposelimiter.go`: the gRPC response interceptor that
minimizes the fields of a response message according to the policy carried in
the caller's token.

* Go `int64` / `int32` values are integers, wrapped explicitly into their
  two's-complement range where the Go code computes or converts them.
* A Go `string` is its sequence of bytes; slicing `text[lo:hi]` is byte slicing
  and fails (run-time panic) when the bounds are out of range.
* A run-time panic is the value `none` of an `Option`.
* The collaborators that live outside the file (the JWT parser, the incoming
  metadata, the clock, the random source, the downstream handler) are inputs of
  the model.
-/

namespace Purposelimiter

/-! ## Go values -/

/-- A Go string: a sequence of bytes. -/
abbrev GoString := List UInt8

/-- UTF-8 encoding of one character. -/
def utf8Char (c : Char) : List UInt8 :=
  let n := c.toNat
  if n < 0x80 then [n.toUInt8]
  else if n < 0x800 then [(0xC0 + n / 64).toUInt8, (0x80 + n % 64).toUInt8]
  else if n < 0x10000 then
    [(0xE0 + n / 4096).toUInt8, (0x80 + n / 64 % 64).toUInt8, (0x80 + n % 64).toUInt8]
  else
    [(0xF0 + n / 262144).toUInt8, (0x80 + n / 4096 % 64).toUInt8,
     (0x80 + n / 64 % 64).toUInt8, (0x80 + n % 64).toUInt8]

/-- The Go string written as the literal `s`: its UTF-8 bytes. -/
def utf8 (s : String) : GoString := s.data.flatMap utf8Char

/-- Go slice expression `text[lo:hi]` on a string: the bytes from `lo` up to `hi`,
or a run-time panic when `lo ≤ hi ≤ len(text)` does not hold. -/
def slice (text : GoString) (lo hi : Nat) : Option GoString :=
  if lo ≤ hi ∧ hi ≤ text.length then some ((text.drop lo).take (hi - lo)) else none

/-- Two's-complement wrap of an integer into the range of `int64`. -/
def wrapInt64 (x : Int) : Int := (x + 2 ^ 63) % 2 ^ 64 - 2 ^ 63

/-- Go conversion `int32(x)`: two's-complement wrap into the range of `int32`. -/
def wrapInt32 (x : Int) : Int := (x + 2 ^ 31) % 2 ^ 32 - 2 ^ 31

/-- The values of Go's `int64`. -/
def isInt64 (x : Int) : Prop := -(2 ^ 63) ≤ x ∧ x < 2 ^ 63

/-- The values of Go's `int32`. -/
def isInt32 (x : Int) : Prop := -(2 ^ 31) ≤ x ∧ x < 2 ^ 31

instance (x : Int) : Decidable (isInt64 x) := by unfold isInt64; infer_instance

instance (x : Int) : Decidable (isInt32 x) := by unfold isInt32; infer_instance

/-! ## The random source (`math/rand`) -/

/-- The process-wide random source: the stream of raw draws still to come. -/
abbrev Rand := Nat → Nat

/-- Go `rand.Int63n(n)`: panics when `n ≤ 0`, otherwise returns a number in
`[0, n)` and advances the source. -/
def Int63n (rnd : Rand) (n : Int) : Option (Int × Rand) :=
  if n ≤ 0 then none else some ((rnd 0 : Int) % n, fun k => rnd (k + 1))

/-! ## Minimization functions -/

/-- Go `suppressInt`: returns -1 as "none". -/
def suppressInt (_number : Int) : Int := -1

/-- Go `suppressString`: returns the empty string. -/
def suppressString (_text : GoString) : GoString := []

/-- Go `noiseInt`: `number - rand.Int63n(number) + rand.Int63n(number)`, operands
evaluated left to right, in `int64` arithmetic. -/
def noiseInt (rnd : Rand) (number : Int) : Option (Int × Rand) :=
  match Int63n rnd number with
  | none => none
  | some (a, rnd1) =>
    match Int63n rnd1 number with
    | none => none
    | some (b, rnd2) => some (wrapInt64 (wrapInt64 (number - a) + b), rnd2)

/-- Go `noiseString`: returns the empty string. -/
def noiseString (_text : GoString) : GoString := []

/-- Go `generalizeInt`: `number/10*10 + 1`, where `/` truncates toward zero, in
`int64` arithmetic. -/
def generalizeInt (number : Int) : Int :=
  wrapInt64 (wrapInt64 (Int.tdiv number 10 * 10) + 1)

/-- Go `generalizeString`: `text[0:1]`. -/
def generalizeString (text : GoString) : Option GoString := slice text 0 1

/-- Go `reduceInt`: `number / 10`, where `/` truncates toward zero. -/
def reduceInt (number : Int) : Int := wrapInt64 (Int.tdiv number 10)

/-- Go `reduceString`: `text[0:3]`. -/
def reduceString (text : GoString) : Option GoString := slice text 0 3

/-! ## Utility functions -/

/-- A Go `error`: its message. -/
abbrev GoError := String

/-- A Go `map[string]string`: its entries. -/
abbrev GoMap := List (String × String)

/-- Go `contains`: checks if a field is present in a map (`_, ok := m[key]`). -/
def contains (m : GoMap) (key : String) : Bool := (m.lookup key).isSome

/-- Go `strings.Split(s, ".")` on the characters of `s`: the pieces between the
dots, always at least one piece. -/
def splitDots : List Char → List (List Char)
  | [] => [[]]
  | c :: cs =>
    match splitDots cs with
    | [] => [[]]
    | p :: ps => if c = '.' then [] :: p :: ps else (c :: p) :: ps

/-- Go `getLastPart`: the last part of a string separated by dots, e.g.
`main.HelloReply.name` gives `name`; an error when there is no part. -/
def getLastPart (s : String) : String × Option GoError :=
  let parts := splitDots s.data
  if parts.length < 1 then ("", some "input string is empty")
  else (String.mk (parts.getD (parts.length - 1) []), none)

/-! ## Messages (`protoreflect`) -/

/-- The kinds of `protoreflect` other than `Int32Kind` and `StringKind`. A map
field has the kind `MessageKind`. -/
inductive OtherKind
  | BoolKind | EnumKind | Sint32Kind | Uint32Kind | Int64Kind | Sint64Kind | Uint64Kind
  | Sfixed32Kind | Fixed32Kind | FloatKind | Sfixed64Kind | Fixed64Kind | DoubleKind
  | BytesKind | MessageKind | GroupKind
  deriving DecidableEq, Repr

/-- The kind of a field, `protoreflect.Kind`. -/
inductive Kind
  | Int32Kind
  | StringKind
  | Other (k : OtherKind)
  deriving DecidableEq, Repr

/-- The content of a field, typed by the field's kind and cardinality: the `int32`
of a singular `Int32Kind` field, the string of a singular `StringKind` field, the
value of a singular field of another kind kept as an uninterpreted payload (the
empty payload is the zero value of the kind), or the list of a repeated field,
with the kind of its elements and its items kept as an uninterpreted payload (the
empty payload is the empty list). -/
inductive Value
  | Int32 (n : Int)
  | String (text : GoString)
  | Other (k : OtherKind) (payload : GoString)
  | List (kind : Kind) (payload : GoString)
  deriving DecidableEq, Repr

/-- The kind of the field that holds this value; for a repeated field, the kind
of its elements. -/
def Value.Kind : Value → Kind
  | .Int32 _ => .Int32Kind
  | .String _ => .StringKind
  | .Other k _ => .Other k
  | .List kind _ => kind

/-- Whether the value is the zero value of its kind: 0, the empty string, the
empty payload, the empty list. -/
def Value.isZero : Value → Bool
  | .Int32 n => n == 0
  | .String text => text.isEmpty
  | .Other _ payload => payload.isEmpty
  | .List _ payload => payload.isEmpty

/-- A top-level field that the message type declares, singular or repeated: its
descriptor (full name, kind and cardinality through the value, explicit presence)
and its current content. `isSet` matters only for a field with explicit
presence. -/
structure Field where
  FullName : String
  HasPresence : Bool
  isSet : Bool
  value : Value
  deriving DecidableEq, Repr

/-- The `Name()` of a descriptor (`protoreflect.FullName.Name`): what follows the
last dot of the full name, or the whole name when it has no dot. -/
def Field.Name (fd : Field) : String :=
  String.mk ((fd.FullName.data.reverse.takeWhile (fun c => c != '.')).reverse)

/-- The `Kind()` of a descriptor. -/
def Field.Kind (fd : Field) : Kind := fd.value.Kind

/-- Whether the field is populated (`Has`): set, for a field with explicit
presence; holding a non-zero value, for a field without. -/
def Field.populated (fd : Field) : Bool :=
  if fd.HasPresence then fd.isSet else !fd.value.isZero

/-- A message seen through `ProtoReflect()`: the top-level fields that its type
declares, in the order in which `Range` visits them. Extension fields are not
part of a `Message`. -/
abbrev Message := List Field

/-- The call `Descriptor().Fields().ByName(name)`: the descriptor of the field of
that name, or nil. -/
def Message.ByName (m : Message) (name : String) : Option Field :=
  m.find? (fun fd => fd.Name == name)

/-- The call `Set(fd, v)`: the field described by `fd` now holds `v` and is
populated. -/
def Message.Set : Message → Field → Value → Message
  | [], _, _ => []
  | f :: fs, fd, v =>
    if f.Name == fd.Name then { f with value := v, isSet := true } :: fs
    else f :: Message.Set fs fd v

/-- The call `Range(f)`: the populated fields, which the callback receives one by
one. -/
def Message.Range (m : Message) : List Field := m.filter Field.populated

/-- The slice `fieldNames` that the `Range` callback of `interceptor` fills: the
last part of the full name of every populated field (a field whose name cannot be
split is reported and left out). -/
def fieldNames (reflectedMsg : Message) : List String :=
  reflectedMsg.Range.filterMap fun fd =>
    match getLastPart fd.FullName with
    | (_, some _) => none
    | (name, none) => some name

/-! ## Claims, tokens and the call's surroundings -/

/-- The `Policy` struct of `CustomClaims`: four maps keyed by field name. -/
structure Policy where
  Allowed : GoMap
  Generalized : GoMap
  Noised : GoMap
  Reduced : GoMap
  deriving DecidableEq, Repr

/-- The registered claims of `jwt.StandardClaims` that the interceptor looks at. -/
structure StandardClaims where
  Issuer : String
  ExpiresAt : Int
  deriving DecidableEq, Repr

/-- Library `StandardClaims.VerifyIssuer(cmp, req)`: an absent issuer passes only
when not required, a present one must equal `cmp`. -/
def StandardClaims.VerifyIssuer (c : StandardClaims) (cmp : String) (req : Bool) : Bool :=
  if c.Issuer == "" then !req else c.Issuer == cmp

/-- Library `StandardClaims.VerifyExpiresAt(cmp, req)`: an absent expiry passes
only when not required, a present one must not lie before `cmp`. -/
def StandardClaims.VerifyExpiresAt (c : StandardClaims) (cmp : Int) (req : Bool) : Bool :=
  if c.ExpiresAt == 0 then !req else decide (cmp ≤ c.ExpiresAt)

/-- Go `CustomClaims`: the custom metadata of the token. -/
structure CustomClaims where
  Policy : Policy
  StandardClaims : StandardClaims
  deriving DecidableEq, Repr

/-- What `jwt.ParseWithClaims` hands back as `*jwt.Token`: whether the token
verified, and its decoded claims (nil when the parser stopped before decoding
them). -/
structure Token where
  Valid : Bool
  Claims : Option CustomClaims
  deriving DecidableEq, Repr

/-- Incoming metadata, `metadata.MD`: a `map[string][]string` with lower-case
keys. -/
abbrev MD := List (String × List String)

/-- Library `MD.Get(k)` for a key `k` written in lower case: the values under
the key, none when the key is absent. -/
def MD.Get (md : MD) (k : String) : List String := (md.lookup k).getD []

/-- The call's context: its incoming metadata, when it has any
(`metadata.FromIncomingContext`). -/
structure Context where
  FromIncomingContext : Option MD
  deriving DecidableEq, Repr

/-- A Go `interface{}` holding a request or a response: nil, a `proto.Message`, or
a value of another type. -/
inductive Any
  | Nil
  | Message (msg : Message)
  | Other (v : String)
  deriving DecidableEq, Repr

/-- The collaborators of one call: the JWT parser (`jwt.ParseWithClaims` with the
interceptor's key function), the clock (`time.Now().Unix()`) and the random
source. -/
structure Env where
  ParseWithClaims : String → Option Token × Option GoError
  Now : Int
  rand : Rand

/-- How a call of `interceptor` ends: it returns `(value, err)`, or it panics. -/
inductive Outcome
  | Return (value : Any) (err : Option GoError)
  | Panic
  deriving DecidableEq, Repr

/-- A finished call of `interceptor`: how it ended, and the state in which it
leaves the handler's response `h` (a message is mutated in place). -/
structure Call where
  outcome : Outcome
  h : Any
  deriving DecidableEq, Repr

/-! ## The interceptor -/

/-- The `Generalized` branch of the loop body: the `switch` on the field's kind.
A repeated field has the kind of its elements: under `case Int32Kind` the call
`Get(fd).Int()` panics on the list it gets, and under `case StringKind` the call
`Set(fd, v)` panics on the string it is handed for a list field (if the slice did
not panic before). -/
def generalizeField (reflectedMsg : Message) (field : String) : Option Message :=
  match reflectedMsg.ByName field with
  | none => none
  | some fd =>
    match fd.value with
    | .Int32 number => some (reflectedMsg.Set fd (.Int32 (wrapInt32 (generalizeInt number))))
    | .String text =>
      match generalizeString text with
      | none => none
      | some s => some (reflectedMsg.Set fd (.String s))
    | .Other _ _ => some reflectedMsg
    | .List .Int32Kind _ => none
    | .List .StringKind _ => none
    | .List (.Other _) _ => some reflectedMsg

/-- The `Noised` branch of the loop body: the `switch` on the field's kind, with
the same panics on a repeated `int32` or string field as in `generalizeField`. -/
def noiseField (rnd : Rand) (reflectedMsg : Message) (field : String) :
    Option (Message × Rand) :=
  match reflectedMsg.ByName field with
  | none => none
  | some fd =>
    match fd.value with
    | .Int32 number =>
      match noiseInt rnd number with
      | none => none
      | some (n, rnd1) => some (reflectedMsg.Set fd (.Int32 (wrapInt32 n)), rnd1)
    | .String text => some (reflectedMsg.Set fd (.String (noiseString text)), rnd)
    | .Other _ _ => some (reflectedMsg, rnd)
    | .List .Int32Kind _ => none
    | .List .StringKind _ => none
    | .List (.Other _) _ => some (reflectedMsg, rnd)

/-- The `Reduced` branch of the loop body: the `switch` on the field's kind, with
the same panics on a repeated `int32` or string field as in `generalizeField`. -/
def reduceField (reflectedMsg : Message) (field : String) : Option Message :=
  match reflectedMsg.ByName field with
  | none => none
  | some fd =>
    match fd.value with
    | .Int32 number => some (reflectedMsg.Set fd (.Int32 (wrapInt32 (reduceInt number))))
    | .String text =>
      match reduceString text with
      | none => none
      | some s => some (reflectedMsg.Set fd (.String s))
    | .Other _ _ => some reflectedMsg
    | .List .Int32Kind _ => none
    | .List .StringKind _ => none
    | .List (.Other _) _ => some reflectedMsg

/-- The final `else` branch of the loop body: the `switch` on the field's kind,
with the same panics on a repeated `int32` or string field as in
`generalizeField`. -/
def suppressField (reflectedMsg : Message) (field : String) : Option Message :=
  match reflectedMsg.ByName field with
  | none => none
  | some fd =>
    match fd.value with
    | .Int32 number => some (reflectedMsg.Set fd (.Int32 (suppressInt number)))
    | .String text => some (reflectedMsg.Set fd (.String (suppressString text)))
    | .Other _ _ => some reflectedMsg
    | .List .Int32Kind _ => none
    | .List .StringKind _ => none
    | .List (.Other _) _ => some reflectedMsg

/-- The body of the loop `for _, field := range fieldNames`: the if/else chain
over the four maps of the policy. `none` is a run-time panic. -/
def processField (claims : CustomClaims) (rnd : Rand) (reflectedMsg : Message)
    (field : String) : Option (Message × Rand) :=
  if !contains claims.Policy.Allowed field then
    if contains claims.Policy.Generalized field then
      (generalizeField reflectedMsg field).map fun m => (m, rnd)
    else if contains claims.Policy.Noised field then
      noiseField rnd reflectedMsg field
    else if contains claims.Policy.Reduced field then
      (reduceField reflectedMsg field).map fun m => (m, rnd)
    else
      (suppressField reflectedMsg field).map fun m => (m, rnd)
  else some (reflectedMsg, rnd)

/-- The loop `for _, field := range fieldNames`. It yields the message as the
loop leaves it, and whether the loop ran to its end (`true`) or stopped in a
run-time panic (`false`). -/
def walkFields (claims : CustomClaims) : List String → Rand → Message → Bool × Message
  | [], _, reflectedMsg => (true, reflectedMsg)
  | field :: rest, rnd, reflectedMsg =>
    match processField claims rnd reflectedMsg field with
    | none => (false, reflectedMsg)
    | some (m, rnd1) => walkFields claims rest rnd1 m

/-- Go `interceptor`. The validation checks sit in `if` statements whose bodies
are commented out, so their results are computed and dropped. -/
def interceptor (env : Env) (ctx : Context) (req : Any)
    (handler : Context → Any → Any × Option GoError) : Call :=
  match handler ctx req with
  | (h, some err) => ⟨.Return .Nil (some err), h⟩
  | (h, none) =>
    match ctx.FromIncomingContext with
    | none => ⟨.Return h none, h⟩
    | some md =>
      match md.Get "authorization" with
      | [] => ⟨.Return h none, h⟩
      | token0 :: _ =>
        match env.ParseWithClaims token0 with
        | (none, _) => ⟨.Panic, h⟩
        | (some tkn, _err) =>
          let _valid := tkn.Valid
          match tkn.Claims with
          | none => ⟨.Panic, h⟩
          | some claims =>
            let _issuer := claims.StandardClaims.VerifyIssuer "test" true
            let _expiry := claims.StandardClaims.VerifyExpiresAt env.Now true
            match h with
            | .Message reflectedMsg =>
              match walkFields claims (fieldNames reflectedMsg) env.rand reflectedMsg with
              | (true, m) => ⟨.Return (.Message m) none, .Message m⟩
              | (false, m) => ⟨.Panic, .Message m⟩
            | _ => ⟨.Return .Nil (some "response is not a proto.Message"), h⟩

/-! ## Specification-side definitions

The definitions below follow the words of the specification; the theorems compare
them with the code above. -/

/-- The five dispositions of the specification's data model. -/
inductive FieldDisposition
  | Allowed | Generalized | Noised | Reduced | Suppressed
  deriving DecidableEq, Repr

/-- The specification's `resolve(fieldName, policy)`: the four sets are tried in
the order Allowed, Generalized, Noised, Reduced, the first one that has the name
wins, and a name in none of them is Suppressed. -/
def resolve (fieldName : String) (policy : Policy) : FieldDisposition :=
  match [(policy.Allowed, FieldDisposition.Allowed),
         (policy.Generalized, FieldDisposition.Generalized),
         (policy.Noised, FieldDisposition.Noised),
         (policy.Reduced, FieldDisposition.Reduced)].find? (fun e => contains e.1 fieldName) with
  | some (_, d) => d
  | none => .Suppressed

/-- What the interceptor does to the field `field` under a given disposition: the
`switch` of that disposition, and nothing for Allowed. -/
def applyDisposition (d : FieldDisposition) (rnd : Rand) (reflectedMsg : Message)
    (field : String) : Option (Message × Rand) :=
  match d with
  | .Allowed => some (reflectedMsg, rnd)
  | .Generalized => (generalizeField reflectedMsg field).map fun m => (m, rnd)
  | .Noised => noiseField rnd reflectedMsg field
  | .Reduced => (reduceField reflectedMsg field).map fun m => (m, rnd)
  | .Suppressed => (suppressField reflectedMsg field).map fun m => (m, rnd)

/-- The specification's Transformer table: the minimized value of a disposition
for a value, `none` where the transform fails. A value that is neither an `int32`
nor a string is left as it is. -/
def transform (rnd : Rand) : FieldDisposition → Value → Option Value
  | .Allowed, v => some v
  | _, .Other k payload => some (.Other k payload)
  | _, .List kind payload => some (.List kind payload)
  | .Generalized, .Int32 n => some (.Int32 (wrapInt32 (generalizeInt n)))
  | .Generalized, .String text => (generalizeString text).map Value.String
  | .Noised, .Int32 n => (noiseInt rnd n).map fun r => .Int32 (wrapInt32 r.1)
  | .Noised, .String text => some (.String (noiseString text))
  | .Reduced, .Int32 n => some (.Int32 (wrapInt32 (reduceInt n)))
  | .Reduced, .String text => (reduceString text).map Value.String
  | .Suppressed, .Int32 n => some (.Int32 (suppressInt n))
  | .Suppressed, .String text => some (.String (suppressString text))

/-- The specification's `WalkingFields` on one field: resolve the disposition of
the field's name, apply the transform to the field's value when the kind is in
scope, and write the result back. -/
def minimizeField (policy : Policy) (rnd : Rand) (f : Field) : Field :=
  match resolve f.Name policy, f.value with
  | .Allowed, _ => f
  | _, .Other _ _ => f
  | _, .List _ _ => f
  | d, v =>
    match transform rnd d v with
    | some w => { f with value := w, isSet := true }
    | none => f

/-- The credential of a call: the first value under the `authorization` key of
the incoming metadata, when there is one. -/
def credential (ctx : Context) : Option String :=
  match ctx.FromIncomingContext with
  | none => none
  | some md => (md.Get "authorization").head?

/-- The call presents a credential that the parser decodes to the claims
`claims` (whatever the parser says about its validity). -/
def carriesClaims (env : Env) (ctx : Context) (claims : CustomClaims) : Prop :=
  ∃ token tkn, credential ctx = some token ∧ (env.ParseWithClaims token).1 = some tkn ∧
    tkn.Claims = some claims

/-- Every field is as Suppressed leaves it: every `int32` field is -1 and every
string field is empty. -/
def allSuppressed (m : Message) : Prop :=
  ∀ f ∈ m, (∀ n, f.value = .Int32 n → n = -1) ∧ (∀ text, f.value = .String text → text = [])

/-- Every field of `m'` that `keep` protects in `m` is still there, at the same
place and identical; the message has as many fields as before. -/
def framed (keep : Field → Prop) (m m' : Message) : Prop :=
  m'.length = m.length ∧ ∀ (i : Nat) (f : Field), m[i]? = some f → keep f → m'[i]? = some f

/-- The condition under which a branch of the loop body respects `keep`: a field
of the given name that holds an `int32` or a string is not protected. -/
def writable (keep : Field → Prop) (field : String) : Prop :=
  ∀ fd : Field, fd.Name = field → (∀ k payload, fd.value ≠ .Other k payload) → ¬ keep fd

/-- The message in which the field of the given name is replaced by `f`. -/
def Message.replace (m : Message) (name : String) (f : Field) : Message :=
  m.map fun g => if g.Name = name then f else g

/-! ## Example data -/

/-- The address message of the specification's end-to-end example. -/
def addressMsg : Message :=
  [⟨"main.Address.houseNumber", false, false, .Int32 135⟩,
   ⟨"main.Address.street", false, false, .String (utf8 "Baker Street")⟩,
   ⟨"main.Address.city", false, false, .String (utf8 "London")⟩]

/-- The address message after minimization in the end-to-end example. -/
def addressMin : Message :=
  [⟨"main.Address.houseNumber", false, true, .Int32 131⟩,
   ⟨"main.Address.street", false, true, .String (utf8 "Bak")⟩,
   ⟨"main.Address.city", false, true, .String []⟩]

/-- The policy of the end-to-end example: houseNumber generalized, street
reduced. -/
def addressPolicy : Policy := ⟨[], [("houseNumber", "")], [], [("street", "")]⟩

/-- A policy that allows houseNumber and names nothing else. -/
def allowHouseNumber : Policy := ⟨[("houseNumber", "")], [], [], []⟩

/-- A parser that accepts every token as valid and decodes it to `claims`. -/
def parseOk (claims : CustomClaims) : String → Option Token × Option GoError :=
  fun _ => (some ⟨true, some claims⟩, none)

/-- A parser that rejects every token (signature is invalid) after decoding it to
`claims`. -/
def parseInvalid (claims : CustomClaims) : String → Option Token × Option GoError :=
  fun _ => (some ⟨false, some claims⟩, some "signature is invalid")

/-- A policy that names houseNumber in all four maps. -/
def overlapPolicy : Policy :=
  ⟨[("houseNumber", "")], [("houseNumber", "")], [("houseNumber", "")], [("houseNumber", "")]⟩

/-- The address message with a boolean field next to the others. -/
def flaggedMsg : Message :=
  addressMsg ++ [⟨"main.Address.verified", false, false, .Other .BoolKind [1]⟩]

/-- A policy that asks to generalize the boolean field. -/
def flagPolicy : Policy := ⟨[], [("verified", "")], [], []⟩

/-- A context whose metadata carries one token under `authorization`. -/
def ctxToken : Context := ⟨some [("authorization", ["token"])]⟩

/-- A context without incoming metadata. -/
def ctxNone : Context := ⟨none⟩

/-- A handler that succeeds with the value `h`. -/
def handlerOk (h : Any) : Context → Any → Any × Option GoError := fun _ _ => (h, none)

/-- A handler that fails with the error `e`, next to the value `h`. -/
def handlerErr (h : Any) (e : GoError) : Context → Any → Any × Option GoError :=
  fun _ _ => (h, some e)

/-- A message with one `int32` field, houseNumber, holding `n`. -/
def houseMsg (n : Int) : Message := [⟨"main.Address.houseNumber", false, false, .Int32 n⟩]

/-- A message with one string field, street, holding `text`; `presence` tells
whether the field has explicit presence, and the field is set. -/
def streetMsg (presence : Bool) (text : GoString) : Message :=
  [⟨"main.Address.street", presence, true, .String text⟩]

/-- A policy that asks to noise houseNumber. -/
def noisePolicy : Policy := ⟨[], [], [("houseNumber", "")], []⟩

/-- A policy that asks to generalize street. -/
def generalizeStreet : Policy := ⟨[], [("street", "")], [], []⟩

/-- A policy that asks to reduce street. -/
def reduceStreet : Policy := ⟨[], [], [], [("street", "")]⟩

/-- A message with one `int64` field, population, holding 7 (the payload is the
byte 7). -/
def populationMsg : Message :=
  [⟨"main.Address.population", false, false, .Other .Int64Kind [7]⟩]

/-- A message with one repeated `int32` field, floors, holding two items. -/
def floorsMsg : Message := [⟨"main.Address.floors", false, false, .List .Int32Kind [1, 2]⟩]

/-- A random source whose first two draws are `a` and `b`. -/
def draws (a b : Nat) : Rand := fun k => if k = 0 then a else b

/-! ## Arithmetic of the integer transforms -/

theorem wrapInt64_of_isInt64 {x : Int} (hx : isInt64 x) : wrapInt64 x = x := by
  unfold isInt64 at hx
  unfold wrapInt64
  omega

theorem wrapInt32_of_isInt32 {x : Int} (hx : isInt32 x) : wrapInt32 x = x := by
  unfold isInt32 at hx
  unfold wrapInt32
  omega

/-- The floor of a tenth, as an integer division. -/
theorem floor_tenth (x : Int) : ⌊(x : ℚ) / 10⌋ = x / 10 := by
  have h := Rat.floor_intCast_div_natCast x 10
  simpa using h

/-- Truncated division by ten, in terms of the floor division. -/
theorem tdiv_ten (x : Int) :
    Int.tdiv x 10 = if 0 ≤ x ∨ x % 10 = 0 then x / 10 else x / 10 + 1 := by
  rcases Int.lt_or_le x 0 with hneg | hpos
  · have hx : x = -(-x) := by omega
    have ht : Int.tdiv x 10 = -((-x) / 10) := by
      rw [hx, Int.neg_tdiv, Int.tdiv_eq_ediv (by omega) (by omega)]
      simp
    rw [ht]
    split <;> omega
  · rw [Int.tdiv_eq_ediv hpos (by omega)]
    simp [hpos]

theorem generalizeInt_eq {x : Int} (hx : isInt64 x) :
    generalizeInt x = Int.tdiv x 10 * 10 + 1 := by
  have ht := tdiv_ten x
  unfold isInt64 at hx
  unfold generalizeInt wrapInt64
  split at ht <;> omega

theorem reduceInt_eq {x : Int} (hx : isInt64 x) : reduceInt x = Int.tdiv x 10 := by
  have ht := tdiv_ten x
  unfold isInt64 at hx
  unfold reduceInt wrapInt64
  split at ht <;> omega

/-! ## C9: generalizeInt -/

/-- C9, as stated, fails at -5: `generalizeInt(-5)` is 1, while `⌊-5/10⌋·10 + 1`
is -9. -/
theorem generalizeInt_floor_counterexample :
    generalizeInt (-5) = 1 ∧ ⌊((-5 : Int) : ℚ) / 10⌋ * 10 + 1 = -9 ∧
      generalizeInt (-5) ≠ ⌊((-5 : Int) : ℚ) / 10⌋ * 10 + 1 := by
  rw [floor_tenth]
  decide

/-- C9, amended: for every `int64` value `x`, `generalizeInt(x)` is `q·10 + 1` with
`q` the quotient of `x` by 10 truncated toward zero; this is `⌊x/10⌋·10 + 1` when
`x ≥ 0` or `x` is a multiple of 10, and `⌊x/10⌋·10 + 11` otherwise; in particular
`generalizeInt(135) = 131`, `generalizeInt(130) = 131`, `generalizeInt(0) = 1`. -/
theorem generalizeInt_truncates (x : Int) (hx : isInt64 x) :
    generalizeInt x = Int.tdiv x 10 * 10 + 1 ∧
      ((0 ≤ x ∨ x % 10 = 0) → generalizeInt x = ⌊(x : ℚ) / 10⌋ * 10 + 1) ∧
      (¬ (0 ≤ x ∨ x % 10 = 0) → generalizeInt x = ⌊(x : ℚ) / 10⌋ * 10 + 11) ∧
      generalizeInt 135 = 131 ∧ generalizeInt 130 = 131 ∧ generalizeInt 0 = 1 := by
  have ht := tdiv_ten x
  rw [floor_tenth, generalizeInt_eq hx]
  refine ⟨rfl, ?_, ?_, by decide, by decide, by decide⟩
  · intro h
    rw [ht, if_pos h]
  · intro h
    rw [ht, if_neg h]
    ring

/-- C9, witness: the amended statement at -135. -/
theorem generalizeInt_truncates_witness :
    isInt64 (-135) ∧ generalizeInt (-135) = Int.tdiv (-135) 10 * 10 + 1 ∧
      generalizeInt (-135) = -129 :=
  ⟨by decide, (generalizeInt_truncates (-135) (by decide)).1, by decide⟩

/-! ## C10: reduceInt -/

/-- C10, as stated, fails at -5: `reduceInt(-5)` is 0, while `⌊-5/10⌋` is -1. -/
theorem reduceInt_floor_counterexample :
    reduceInt (-5) = 0 ∧ ⌊((-5 : Int) : ℚ) / 10⌋ = -1 ∧
      reduceInt (-5) ≠ ⌊((-5 : Int) : ℚ) / 10⌋ := by
  rw [floor_tenth]
  decide

/-- C10, amended: for every `int64` value `x`, `reduceInt(x)` is the quotient of `x`
by 10 truncated toward zero; this is `⌊x/10⌋` when `x ≥ 0` or `x` is a multiple
of 10, and `⌊x/10⌋ + 1` otherwise; in particular `reduceInt(135) = 13` and
`reduceInt(-5) = 0`. -/
theorem reduceInt_truncates (x : Int) (hx : isInt64 x) :
    reduceInt x = Int.tdiv x 10 ∧
      ((0 ≤ x ∨ x % 10 = 0) → reduceInt x = ⌊(x : ℚ) / 10⌋) ∧
      (¬ (0 ≤ x ∨ x % 10 = 0) → reduceInt x = ⌊(x : ℚ) / 10⌋ + 1) ∧
      reduceInt 135 = 13 ∧ reduceInt (-5) = 0 := by
  have ht := tdiv_ten x
  rw [floor_tenth, reduceInt_eq hx]
  refine ⟨rfl, ?_, ?_, by decide, by decide⟩
  · intro h
    rw [ht, if_pos h]
  · intro h
    rw [ht, if_neg h]

/-- C10, witness: the amended statement at -135. -/
theorem reduceInt_truncates_witness :
    isInt64 (-135) ∧ reduceInt (-135) = Int.tdiv (-135) 10 ∧ reduceInt (-135) = -13 :=
  ⟨by decide, (reduceInt_truncates (-135) (by decide)).1, by decide⟩

/-! ## The paths of the interceptor around the field loop -/

theorem credential_none_iff (ctx : Context) :
    credential ctx = none ↔
      ctx.FromIncomingContext = none ∨
        ∃ md, ctx.FromIncomingContext = some md ∧ md.Get "authorization" = [] := by
  unfold credential
  cases hmd : ctx.FromIncomingContext with
  | none => simp
  | some md =>
    cases hg : md.Get "authorization" with
    | nil => simp [hg]
    | cons t ts => simp [hg]

/-- Without a credential the interceptor hands the handler's value through. -/
theorem interceptor_no_credential (env : Env) (ctx : Context) (req : Any)
    (handler : Context → Any → Any × Option GoError) (h : Any)
    (hh : handler ctx req = (h, none)) (hc : credential ctx = none) :
    interceptor env ctx req handler = ⟨.Return h none, h⟩ := by
  unfold interceptor
  rw [hh]
  rcases (credential_none_iff ctx).1 hc with hmd | ⟨md, hmd, hg⟩
  · simp [hmd]
  · simp [hmd, hg]

/-- What `carriesClaims` says, step by step along the interceptor's path. -/
theorem carriesClaims_path {env : Env} {ctx : Context} {claims : CustomClaims}
    (hc : carriesClaims env ctx claims) :
    ∃ md t ts tkn e, ctx.FromIncomingContext = some md ∧ md.Get "authorization" = t :: ts ∧
      env.ParseWithClaims t = (some tkn, e) ∧ tkn.Claims = some claims := by
  obtain ⟨token, tkn, hcred, hparse, hclaims⟩ := hc
  unfold credential at hcred
  cases hmd : ctx.FromIncomingContext with
  | none => simp [hmd] at hcred
  | some md =>
    simp only [hmd] at hcred
    cases hg : md.Get "authorization" with
    | nil => simp [hg] at hcred
    | cons t ts =>
      simp only [hg, List.head?_cons, Option.some.injEq] at hcred
      subst hcred
      cases hp : env.ParseWithClaims t with
      | mk tk e =>
        rw [hp] at hparse
        simp only at hparse
        subst hparse
        exact ⟨md, t, ts, tkn, e, rfl, hg, hp, hclaims⟩

/-- With a credential that decodes to claims and a handler that returns a message,
the interceptor's result is the result of the field loop. -/
theorem interceptor_message (env : Env) (ctx : Context) (req : Any)
    (handler : Context → Any → Any × Option GoError) (msg : Message) (claims : CustomClaims)
    (hh : handler ctx req = (.Message msg, none)) (hc : carriesClaims env ctx claims) :
    interceptor env ctx req handler =
      if (walkFields claims (fieldNames msg) env.rand msg).1 then
        ⟨.Return (.Message (walkFields claims (fieldNames msg) env.rand msg).2) none,
          .Message (walkFields claims (fieldNames msg) env.rand msg).2⟩
      else ⟨.Panic, .Message (walkFields claims (fieldNames msg) env.rand msg).2⟩ := by
  obtain ⟨md, t, ts, tkn, e, hmd, hg, hp, hclaims⟩ := carriesClaims_path hc
  unfold interceptor
  simp only [hh, hmd, hg, hp, hclaims]
  cases hw : walkFields claims (fieldNames msg) env.rand msg with
  | mk done m => cases done <;> simp

/-- With a credential that decodes to claims and a handler that returns something
that is not a message, the interceptor returns its own error. -/
theorem interceptor_other (env : Env) (ctx : Context) (req : Any)
    (handler : Context → Any → Any × Option GoError) (h : Any) (claims : CustomClaims)
    (hh : handler ctx req = (h, none)) (hm : ∀ msg, h ≠ .Message msg)
    (hc : carriesClaims env ctx claims) :
    interceptor env ctx req handler =
      ⟨.Return .Nil (some "response is not a proto.Message"), h⟩ := by
  obtain ⟨md, t, ts, tkn, e, hmd, hg, hp, hclaims⟩ := carriesClaims_path hc
  unfold interceptor
  cases h with
  | Message msg => exact absurd rfl (hm msg)
  | Nil => simp only [hh, hmd, hg, hp, hclaims]
  | Other v => simp only [hh, hmd, hg, hp, hclaims]

/-! ## C7: a failed handler -/

/-- C7: when the downstream handler fails with error `e`, the interceptor returns
`(nil, e)`, whatever the context, the credential, the parser and the policy are,
and it leaves the handler's value `h` as it is: no field is read or written. -/
theorem interceptor_handler_error (env : Env) (ctx : Context) (req : Any)
    (handler : Context → Any → Any × Option GoError) (h : Any) (e : GoError)
    (hh : handler ctx req = (h, some e)) :
    interceptor env ctx req handler = ⟨.Return .Nil (some e), h⟩ := by
  unfold interceptor
  rw [hh]

/-- C7, witness: a handler that fails with "boom" next to the address message,
on a call that carries a token. -/
theorem interceptor_handler_error_witness :
    handlerErr (.Message addressMsg) "boom" ctxToken .Nil = (.Message addressMsg, some "boom") ∧
      interceptor ⟨parseOk ⟨addressPolicy, ⟨"test", 0⟩⟩, 0, fun _ => 0⟩ ctxToken .Nil
          (handlerErr (.Message addressMsg) "boom") =
        ⟨.Return .Nil (some "boom"), .Message addressMsg⟩ :=
  ⟨rfl, interceptor_handler_error _ _ _ _ _ _ rfl⟩

/-! ## C4: no credential -/

/-- C4, as stated, fails: on a call without incoming metadata the interceptor
returns the address message as the handler produced it, with houseNumber 135 and
the street and city in full, not suppressed. -/
theorem no_credential_counterexample :
    interceptor ⟨parseOk ⟨addressPolicy, ⟨"test", 0⟩⟩, 0, fun _ => 0⟩ ctxNone .Nil
        (handlerOk (.Message addressMsg)) =
      ⟨.Return (.Message addressMsg) none, .Message addressMsg⟩ ∧
    ¬ allSuppressed addressMsg := by
  refine ⟨by decide, ?_⟩
  intro hs
  have h135 := (hs ⟨"main.Address.houseNumber", false, false, .Int32 135⟩ (by decide)).1 135 rfl
  exact absurd h135 (by decide)

/-- C4, amended: when no credential is present on the call (no incoming metadata,
or no value under the authorization key) and the handler succeeds with `h`, the
interceptor returns `h` with no error and leaves it unchanged: no field is
minimized. -/
theorem interceptor_no_credential_passthrough (env : Env) (ctx : Context) (req : Any)
    (handler : Context → Any → Any × Option GoError) (h : Any)
    (hh : handler ctx req = (h, none))
    (hc : ctx.FromIncomingContext = none ∨
      ∃ md, ctx.FromIncomingContext = some md ∧ md.Get "authorization" = []) :
    interceptor env ctx req handler = ⟨.Return h none, h⟩ :=
  interceptor_no_credential env ctx req handler h hh ((credential_none_iff ctx).2 hc)

/-- C4, witness: metadata without an authorization key. -/
theorem interceptor_no_credential_passthrough_witness :
    interceptor ⟨parseOk ⟨addressPolicy, ⟨"test", 0⟩⟩, 0, fun _ => 0⟩
        ⟨some [("user-agent", ["grpc-go"])]⟩ .Nil (handlerOk (.Message addressMsg)) =
      ⟨.Return (.Message addressMsg) none, .Message addressMsg⟩ :=
  interceptor_no_credential_passthrough _ ⟨some [("user-agent", ["grpc-go"])]⟩ .Nil _ _ rfl
    (Or.inr ⟨[("user-agent", ["grpc-go"])], rfl, by decide⟩)

/-! ## C5: a credential that fails verification -/

/-- C5: the code at the failing input. The token's signature is invalid (the
parser returns an error and `Valid` is false), its issuer is not "test" and it
expired long ago, yet the interceptor follows the policy of the token: the
houseNumber it allows is returned as 135, not suppressed to -1. -/
theorem unverified_policy_is_trusted :
    interceptor ⟨parseInvalid ⟨allowHouseNumber, ⟨"mallory", 1⟩⟩, 1000, fun _ => 0⟩ ctxToken .Nil
        (handlerOk (.Message addressMsg)) =
      ⟨.Return (.Message [⟨"main.Address.houseNumber", false, false, .Int32 135⟩,
          ⟨"main.Address.street", false, true, .String []⟩,
          ⟨"main.Address.city", false, true, .String []⟩]) none,
        .Message [⟨"main.Address.houseNumber", false, false, .Int32 135⟩,
          ⟨"main.Address.street", false, true, .String []⟩,
          ⟨"main.Address.city", false, true, .String []⟩]⟩ ∧
    StandardClaims.VerifyIssuer ⟨"mallory", 1⟩ "test" true = false ∧
    StandardClaims.VerifyExpiresAt ⟨"mallory", 1⟩ 1000 true = false := by
  decide

/-! ## C6: a response that is not a message -/

/-- C6, as stated, fails: on a call without a credential whose handler succeeds
with a value that is not a message, the interceptor returns that value and no
error. -/
theorem not_message_counterexample :
    interceptor ⟨parseOk ⟨addressPolicy, ⟨"test", 0⟩⟩, 0, fun _ => 0⟩ ctxNone .Nil
        (handlerOk (.Other "raw bytes")) =
      ⟨.Return (.Other "raw bytes") none, .Other "raw bytes"⟩ := by
  decide

/-- C6, amended: for every call whose handler succeeds with a value `h` that is not
a message: when the call presents a credential that decodes to claims, the
interceptor returns the error "response is not a proto.Message" and a nil value,
never `h`; when the call presents no credential, it returns `h` with no error. -/
theorem interceptor_not_message (env : Env) (ctx : Context) (req : Any)
    (handler : Context → Any → Any × Option GoError) (h : Any)
    (hh : handler ctx req = (h, none)) (hm : ∀ msg, h ≠ .Message msg) :
    (∀ claims, carriesClaims env ctx claims →
      interceptor env ctx req handler =
        ⟨.Return .Nil (some "response is not a proto.Message"), h⟩) ∧
    (credential ctx = none → interceptor env ctx req handler = ⟨.Return h none, h⟩) := by
  refine ⟨?_, interceptor_no_credential env ctx req handler h hh⟩
  intro claims hc
  exact interceptor_other env ctx req handler h claims hh hm hc

/-- C6, witness: a handler that returns raw bytes, on a call with a token. -/
theorem interceptor_not_message_witness :
    interceptor ⟨parseOk ⟨addressPolicy, ⟨"test", 0⟩⟩, 0, fun _ => 0⟩ ctxToken .Nil
        (handlerOk (.Other "raw bytes")) =
      ⟨.Return .Nil (some "response is not a proto.Message"), .Other "raw bytes"⟩ :=
  (interceptor_not_message ⟨parseOk ⟨addressPolicy, ⟨"test", 0⟩⟩, 0, fun _ => 0⟩ ctxToken .Nil
      (handlerOk (.Other "raw bytes")) (.Other "raw bytes") rfl (by intro msg hEq; cases hEq)).1
    ⟨addressPolicy, ⟨"test", 0⟩⟩ ⟨"token", ⟨true, some ⟨addressPolicy, ⟨"test", 0⟩⟩⟩, by decide, rfl, rfl⟩

/-! ## C2: the if/else chain resolves by precedence -/

/-- C2: for every field name and every policy, the if/else chain of the loop body
does to the field what the disposition `resolve` picks does, where `resolve` is
the first match in the order Allowed, Generalized, Noised, Reduced; the picked
disposition is Suppressed exactly when the name is in none of the four maps, and
each of the other four exactly when the name is in its map and in none of the
maps before it. -/
theorem processField_resolves (claims : CustomClaims) (rnd : Rand) (reflectedMsg : Message)
    (field : String) :
    processField claims rnd reflectedMsg field =
        applyDisposition (resolve field claims.Policy) rnd reflectedMsg field ∧
      (resolve field claims.Policy = .Allowed ↔ contains claims.Policy.Allowed field = true) ∧
      (resolve field claims.Policy = .Generalized ↔
        contains claims.Policy.Allowed field = false ∧
          contains claims.Policy.Generalized field = true) ∧
      (resolve field claims.Policy = .Noised ↔
        contains claims.Policy.Allowed field = false ∧
          contains claims.Policy.Generalized field = false ∧
          contains claims.Policy.Noised field = true) ∧
      (resolve field claims.Policy = .Reduced ↔
        contains claims.Policy.Allowed field = false ∧
          contains claims.Policy.Generalized field = false ∧
          contains claims.Policy.Noised field = false ∧
          contains claims.Policy.Reduced field = true) ∧
      (resolve field claims.Policy = .Suppressed ↔
        contains claims.Policy.Allowed field = false ∧
          contains claims.Policy.Generalized field = false ∧
          contains claims.Policy.Noised field = false ∧
          contains claims.Policy.Reduced field = false) := by
  unfold processField applyDisposition resolve
  cases hA : contains claims.Policy.Allowed field <;>
    cases hG : contains claims.Policy.Generalized field <;>
    cases hN : contains claims.Policy.Noised field <;>
    cases hR : contains claims.Policy.Reduced field <;>
    simp [List.find?, hA, hG, hN, hR]

/-! ## Frame lemmas: what the field loop leaves alone -/

theorem framed_refl (keep : Field → Prop) (m : Message) : framed keep m m :=
  ⟨rfl, fun _ _ h _ => h⟩

theorem framed_trans {keep : Field → Prop} {m m1 m2 : Message}
    (h1 : framed keep m m1) (h2 : framed keep m1 m2) : framed keep m m2 :=
  ⟨h2.1.trans h1.1, fun i f hf hk => h2.2 i f (h1.2 i f hf hk) hk⟩

theorem ByName_name {m : Message} {name : String} {fd : Field}
    (h : m.ByName name = some fd) : fd.Name = name := by
  unfold Message.ByName at h
  have hp := List.find?_some h
  simpa using hp

/-- The call `Set` on the descriptor that `ByName` returned rewrites that field and
no other. -/
theorem Set_framed (keep : Field → Prop) (v : Value) :
    ∀ (m : Message) (name : String) (fd : Field),
      m.ByName name = some fd → ¬ keep fd → framed keep m (m.Set fd v) := by
  intro m
  induction m with
  | nil => intro name fd h; simp [Message.ByName] at h
  | cons f fs ih =>
    intro name fd h hk
    have hname := ByName_name h
    unfold Message.ByName at h
    rw [List.find?_cons] at h
    by_cases hf : f.Name = name
    · have hfd : f = fd := by simpa [hf] using h
      subst hfd
      refine ⟨by simp [Message.Set], ?_⟩
      intro i g hg hkg
      cases i with
      | zero =>
        simp only [List.getElem?_cons_zero, Option.some.injEq] at hg
        subst hg
        exact absurd hkg hk
      | succ j => simpa [Message.Set] using hg
    · have hne : f.Name ≠ fd.Name := by rw [hname]; exact hf
      have hb : (f.Name == name) = false := by simpa using hf
      have hrest : Message.ByName fs name = some fd := by
        rw [hb] at h
        exact h
      have hih := ih name fd hrest hk
      refine ⟨by simp [Message.Set, hne, hih.1], ?_⟩
      intro i g hg hkg
      cases i with
      | zero => simpa [Message.Set, hne] using hg
      | succ j =>
        simp only [List.getElem?_cons_succ] at hg
        simpa [Message.Set, hne] using hih.2 j g hg hkg

theorem generalizeField_framed {keep : Field → Prop} {m m' : Message} {field : String}
    (hw : writable keep field) (h : generalizeField m field = some m') : framed keep m m' := by
  unfold generalizeField at h
  cases hb : m.ByName field with
  | none => simp [hb] at h
  | some fd =>
    have hn := ByName_name hb
    simp only [hb] at h
    cases hv : fd.value with
    | Int32 n =>
      simp only [hv, Option.some.injEq] at h
      subst h
      exact Set_framed keep _ m field fd hb (hw fd hn (by simp [hv]))
    | String text =>
      simp only [hv] at h
      cases hs : generalizeString text with
      | none => simp [hs] at h
      | some s =>
        simp only [hs, Option.some.injEq] at h
        subst h
        exact Set_framed keep _ m field fd hb (hw fd hn (by simp [hv]))
    | Other k payload =>
      simp only [hv, Option.some.injEq] at h
      subst h
      exact framed_refl keep m
    | List kind payload =>
      cases kind with
      | Int32Kind => simp [hv] at h
      | StringKind => simp [hv] at h
      | Other o =>
        simp only [hv, Option.some.injEq] at h
        subst h
        exact framed_refl keep m

theorem noiseField_framed {keep : Field → Prop} {m m' : Message} {field : String}
    {rnd rnd' : Rand} (hw : writable keep field)
    (h : noiseField rnd m field = some (m', rnd')) : framed keep m m' := by
  unfold noiseField at h
  cases hb : m.ByName field with
  | none => simp [hb] at h
  | some fd =>
    have hn := ByName_name hb
    simp only [hb] at h
    cases hv : fd.value with
    | Int32 n =>
      simp only [hv] at h
      cases hs : noiseInt rnd n with
      | none => simp [hs] at h
      | some r =>
        obtain ⟨x, r1⟩ := r
        simp only [hs, Option.some.injEq, Prod.mk.injEq] at h
        rw [← h.1]
        exact Set_framed keep _ m field fd hb (hw fd hn (by simp [hv]))
    | String text =>
      simp only [hv, Option.some.injEq, Prod.mk.injEq] at h
      rw [← h.1]
      exact Set_framed keep _ m field fd hb (hw fd hn (by simp [hv]))
    | Other k payload =>
      simp only [hv, Option.some.injEq, Prod.mk.injEq] at h
      rw [← h.1]
      exact framed_refl keep m
    | List kind payload =>
      cases kind with
      | Int32Kind => simp [hv] at h
      | StringKind => simp [hv] at h
      | Other o =>
        simp only [hv, Option.some.injEq, Prod.mk.injEq] at h
        rw [← h.1]
        exact framed_refl keep m

theorem reduceField_framed {keep : Field → Prop} {m m' : Message} {field : String}
    (hw : writable keep field) (h : reduceField m field = some m') : framed keep m m' := by
  unfold reduceField at h
  cases hb : m.ByName field with
  | none => simp [hb] at h
  | some fd =>
    have hn := ByName_name hb
    simp only [hb] at h
    cases hv : fd.value with
    | Int32 n =>
      simp only [hv, Option.some.injEq] at h
      subst h
      exact Set_framed keep _ m field fd hb (hw fd hn (by simp [hv]))
    | String text =>
      simp only [hv] at h
      cases hs : reduceString text with
      | none => simp [hs] at h
      | some s =>
        simp only [hs, Option.some.injEq] at h
        subst h
        exact Set_framed keep _ m field fd hb (hw fd hn (by simp [hv]))
    | Other k payload =>
      simp only [hv, Option.some.injEq] at h
      subst h
      exact framed_refl keep m
    | List kind payload =>
      cases kind with
      | Int32Kind => simp [hv] at h
      | StringKind => simp [hv] at h
      | Other o =>
        simp only [hv, Option.some.injEq] at h
        subst h
        exact framed_refl keep m

theorem suppressField_framed {keep : Field → Prop} {m m' : Message} {field : String}
    (hw : writable keep field) (h : suppressField m field = some m') : framed keep m m' := by
  unfold suppressField at h
  cases hb : m.ByName field with
  | none => simp [hb] at h
  | some fd =>
    have hn := ByName_name hb
    simp only [hb] at h
    cases hv : fd.value with
    | Int32 n =>
      simp only [hv, Option.some.injEq] at h
      subst h
      exact Set_framed keep _ m field fd hb (hw fd hn (by simp [hv]))
    | String text =>
      simp only [hv, Option.some.injEq] at h
      subst h
      exact Set_framed keep _ m field fd hb (hw fd hn (by simp [hv]))
    | Other k payload =>
      simp only [hv, Option.some.injEq] at h
      subst h
      exact framed_refl keep m
    | List kind payload =>
      cases kind with
      | Int32Kind => simp [hv] at h
      | StringKind => simp [hv] at h
      | Other o =>
        simp only [hv, Option.some.injEq] at h
        subst h
        exact framed_refl keep m

/-- One turn of the loop respects `keep` when no field that the policy does not
allow and that holds an `int32` or a string is protected. -/
theorem processField_framed {keep : Field → Prop} {claims : CustomClaims}
    (hk : ∀ fd : Field, contains claims.Policy.Allowed fd.Name = false →
      (∀ k payload, fd.value ≠ .Other k payload) → ¬ keep fd)
    {rnd rnd' : Rand} {m m' : Message} {field : String}
    (h : processField claims rnd m field = some (m', rnd')) : framed keep m m' := by
  unfold processField at h
  cases hA : contains claims.Policy.Allowed field with
  | true =>
    simp only [hA, Bool.not_true, Bool.false_eq_true, if_false, Option.some.injEq,
      Prod.mk.injEq] at h
    rw [← h.1]
    exact framed_refl keep m
  | false =>
    have hw : writable keep field := by
      intro fd hn hv
      exact hk fd (by rw [hn]; exact hA) hv
    simp only [hA, Bool.not_false, if_true] at h
    split at h
    · cases hg : generalizeField m field with
      | none => simp [hg] at h
      | some m1 =>
        simp only [hg, Option.map_some', Option.some.injEq, Prod.mk.injEq] at h
        rw [← h.1]
        exact generalizeField_framed hw hg
    · split at h
      · exact noiseField_framed hw h
      · split at h
        · cases hg : reduceField m field with
          | none => simp [hg] at h
          | some m1 =>
            simp only [hg, Option.map_some', Option.some.injEq, Prod.mk.injEq] at h
            rw [← h.1]
            exact reduceField_framed hw hg
        · cases hg : suppressField m field with
          | none => simp [hg] at h
          | some m1 =>
            simp only [hg, Option.map_some', Option.some.injEq, Prod.mk.injEq] at h
            rw [← h.1]
            exact suppressField_framed hw hg

/-- The whole loop respects `keep`, whether it runs to its end or stops in a
panic. -/
theorem walkFields_framed {keep : Field → Prop} {claims : CustomClaims}
    (hk : ∀ fd : Field, contains claims.Policy.Allowed fd.Name = false →
      (∀ k payload, fd.value ≠ .Other k payload) → ¬ keep fd) :
    ∀ (names : List String) (rnd : Rand) (m : Message),
      framed keep m (walkFields claims names rnd m).2 := by
  intro names
  induction names with
  | nil => intro rnd m; exact framed_refl keep m
  | cons field rest ih =>
    intro rnd m
    unfold walkFields
    cases hp : processField claims rnd m field with
    | none => exact framed_refl keep m
    | some r =>
      obtain ⟨m1, rnd1⟩ := r
      exact framed_trans (processField_framed hk hp) (ih rnd1 m1)

/-- Where the interceptor leaves a message that the handler returned: as it was,
or as the field loop left it under the claims the call carries. -/
theorem interceptor_leaves (env : Env) (ctx : Context) (req : Any)
    (handler : Context → Any → Any × Option GoError) (msg : Message)
    (hh : handler ctx req = (.Message msg, none)) :
    ∃ m', (interceptor env ctx req handler).h = .Message m' ∧
      ((interceptor env ctx req handler).outcome = .Return (.Message m') none ∨
        (interceptor env ctx req handler).outcome = .Panic) ∧
      (m' = msg ∨ ∃ claims, carriesClaims env ctx claims ∧
        m' = (walkFields claims (fieldNames msg) env.rand msg).2) := by
  by_cases hc : ∃ claims, carriesClaims env ctx claims
  · obtain ⟨claims, hc⟩ := hc
    rw [interceptor_message env ctx req handler msg claims hh hc]
    refine ⟨(walkFields claims (fieldNames msg) env.rand msg).2, ?_, ?_, Or.inr ⟨claims, hc, rfl⟩⟩
    · split <;> rfl
    · split
      · exact Or.inl rfl
      · exact Or.inr rfl
  · refine ⟨msg, ?_, ?_, Or.inl rfl⟩ <;>
    · unfold interceptor
      simp only [hh]
      cases hmd : ctx.FromIncomingContext with
      | none => simp
      | some md =>
        cases hg : md.Get "authorization" with
        | nil => simp [hg]
        | cons t ts =>
          cases hp : env.ParseWithClaims t with
          | mk tk e =>
            cases tk with
            | none => simp [hg, hp]
            | some tkn =>
              cases hcl : tkn.Claims with
              | none => simp [hg, hp, hcl]
              | some claims =>
                exfalso
                apply hc
                refine ⟨claims, t, tkn, ?_, by rw [hp], hcl⟩
                simp [credential, hmd, hg]

/-! ## C1: allowed fields -/

/-- C1: for every message the handler returns and every policy carried by a
present credential, the interceptor leaves the message with the same number of
fields, and every field whose name is in the policy's Allowed map is identical
after processing to what it was before, also when the name is in Generalized,
Noised or Reduced as well; the call returns that message or stops in a panic. -/
theorem allowed_fields_unchanged (env : Env) (ctx : Context) (req : Any)
    (handler : Context → Any → Any × Option GoError) (msg : Message) (claims : CustomClaims)
    (hh : handler ctx req = (.Message msg, none)) (hc : carriesClaims env ctx claims) :
    ∃ m', (interceptor env ctx req handler).h = .Message m' ∧
      ((interceptor env ctx req handler).outcome = .Return (.Message m') none ∨
        (interceptor env ctx req handler).outcome = .Panic) ∧
      m'.length = msg.length ∧
      ∀ (i : Nat) (f : Field), msg[i]? = some f →
        contains claims.Policy.Allowed f.Name = true → m'[i]? = some f := by
  have hfr : framed (fun f => contains claims.Policy.Allowed f.Name = true) msg
      (walkFields claims (fieldNames msg) env.rand msg).2 :=
    walkFields_framed (fun fd hA _ hT => by rw [hA] at hT; cases hT) _ _ _
  rw [interceptor_message env ctx req handler msg claims hh hc]
  refine ⟨(walkFields claims (fieldNames msg) env.rand msg).2, ?_, ?_, hfr.1, hfr.2⟩
  · split <;> rfl
  · split
    · exact Or.inl rfl
    · exact Or.inr rfl

/-- C1, witness: the address message under a policy that names houseNumber in all
four maps. -/
theorem allowed_fields_unchanged_witness :
    ∃ m', (interceptor ⟨parseOk ⟨overlapPolicy, ⟨"test", 0⟩⟩, 0, fun _ => 0⟩ ctxToken .Nil
        (handlerOk (.Message addressMsg))).h = .Message m' ∧
      ((interceptor ⟨parseOk ⟨overlapPolicy, ⟨"test", 0⟩⟩, 0, fun _ => 0⟩ ctxToken .Nil
          (handlerOk (.Message addressMsg))).outcome = .Return (.Message m') none ∨
        (interceptor ⟨parseOk ⟨overlapPolicy, ⟨"test", 0⟩⟩, 0, fun _ => 0⟩ ctxToken .Nil
          (handlerOk (.Message addressMsg))).outcome = .Panic) ∧
      m'.length = addressMsg.length ∧
      ∀ (i : Nat) (f : Field), addressMsg[i]? = some f →
        contains overlapPolicy.Allowed f.Name = true → m'[i]? = some f :=
  allowed_fields_unchanged ⟨parseOk ⟨overlapPolicy, ⟨"test", 0⟩⟩, 0, fun _ => 0⟩ ctxToken .Nil
    (handlerOk (.Message addressMsg)) addressMsg ⟨overlapPolicy, ⟨"test", 0⟩⟩ rfl
    ⟨"token", ⟨true, some ⟨overlapPolicy, ⟨"test", 0⟩⟩⟩, by decide, rfl, rfl⟩

/-! ## C8: fields of other kinds -/

/-- C8: for every message the handler returns, every context and every policy, a
field whose kind is neither `int32` nor string (a boolean, say) is present after
processing at the same place with its content unchanged, whichever disposition its
name resolves to; the call returns the message or stops in a panic. -/
theorem other_kinds_unchanged (env : Env) (ctx : Context) (req : Any)
    (handler : Context → Any → Any × Option GoError) (msg : Message)
    (hh : handler ctx req = (.Message msg, none)) :
    ∃ m', (interceptor env ctx req handler).h = .Message m' ∧
      ((interceptor env ctx req handler).outcome = .Return (.Message m') none ∨
        (interceptor env ctx req handler).outcome = .Panic) ∧
      m'.length = msg.length ∧
      ∀ (i : Nat) (f : Field) (k : OtherKind) (payload : GoString), msg[i]? = some f →
        f.value = .Other k payload → m'[i]? = some f := by
  obtain ⟨m', hm, ho, hcase⟩ := interceptor_leaves env ctx req handler msg hh
  refine ⟨m', hm, ho, ?_⟩
  rcases hcase with rfl | ⟨claims, _, rfl⟩
  · exact ⟨rfl, fun i f k payload hf _ => hf⟩
  · have hfr : framed (fun f => ∃ k payload, f.value = .Other k payload) msg
        (walkFields claims (fieldNames msg) env.rand msg).2 :=
      walkFields_framed (fun fd _ hv hT => by
        obtain ⟨k, payload, hT⟩ := hT
        exact hv k payload hT) _ _ _
    exact ⟨hfr.1, fun i f k payload hf hv => hfr.2 i f hf ⟨k, payload, hv⟩⟩

/-- C8, witness: the address message with a boolean field that the policy asks to
generalize. -/
theorem other_kinds_unchanged_witness :
    ∃ m', (interceptor ⟨parseOk ⟨flagPolicy, ⟨"test", 0⟩⟩, 0, fun _ => 0⟩ ctxToken .Nil
        (handlerOk (.Message flaggedMsg))).h = .Message m' ∧
      ((interceptor ⟨parseOk ⟨flagPolicy, ⟨"test", 0⟩⟩, 0, fun _ => 0⟩ ctxToken .Nil
          (handlerOk (.Message flaggedMsg))).outcome = .Return (.Message m') none ∨
        (interceptor ⟨parseOk ⟨flagPolicy, ⟨"test", 0⟩⟩, 0, fun _ => 0⟩ ctxToken .Nil
          (handlerOk (.Message flaggedMsg))).outcome = .Panic) ∧
      m'.length = flaggedMsg.length ∧
      ∀ (i : Nat) (f : Field) (k : OtherKind) (payload : GoString), flaggedMsg[i]? = some f →
        f.value = .Other k payload → m'[i]? = some f :=
  other_kinds_unchanged ⟨parseOk ⟨flagPolicy, ⟨"test", 0⟩⟩, 0, fun _ => 0⟩ ctxToken .Nil
    (handlerOk (.Message flaggedMsg)) flaggedMsg rfl

/-! ## The field names the loop walks over -/

/-- What follows the last dot of a list of characters. -/
theorem lastPiece_cons (c : Char) (cs : List Char) :
    (((c :: cs).reverse.takeWhile (fun x => x != '.')).reverse) =
      if '.' ∈ cs then ((cs.reverse.takeWhile (fun x => x != '.')).reverse)
      else if c = '.' then cs else c :: cs := by
  rw [List.reverse_cons, List.takeWhile_append]
  by_cases hdot : '.' ∈ cs
  · have hlen : ¬ (List.takeWhile (fun x => x != '.') cs.reverse).length = cs.reverse.length := by
      intro hl
      have hall := (List.takeWhile_eq_self_iff (p := fun x => x != '.') (l := cs.reverse)).1
        (List.IsPrefix.eq_of_length (List.takeWhile_prefix _) hl)
      have := hall '.' (by simpa using hdot)
      simp at this
    rw [if_neg hlen, if_pos hdot]
  · have hall : ∀ x ∈ cs.reverse, (fun x => x != '.') x = true := by
      intro x hx
      have hx' : x ∈ cs := by simpa using hx
      have : x ≠ '.' := fun h => hdot (h ▸ hx')
      simpa using this
    have hself := (List.takeWhile_eq_self_iff (p := fun x => x != '.') (l := cs.reverse)).2 hall
    rw [if_pos (by rw [hself]), if_neg hdot]
    by_cases hc : c = '.'
    · simp [hc]
    · simp [hc]

/-- The pieces of `strings.Split(s, ".")`: there is a first piece; there is no
further piece exactly when `s` has no dot, and then the first piece is `s`; the
last piece is what follows the last dot. -/
theorem splitDots_spec (cs : List Char) :
    ∃ p ps, splitDots cs = p :: ps ∧ (ps = [] ↔ '.' ∉ cs) ∧ (ps = [] → p = cs) ∧
      (p :: ps).getLast? = some ((cs.reverse.takeWhile (fun x => x != '.')).reverse) := by
  induction cs with
  | nil => exact ⟨[], [], rfl, by simp, by simp, by simp⟩
  | cons c cs ih =>
    obtain ⟨p, ps, hsplit, hiff, hp, hlast⟩ := ih
    rw [lastPiece_cons]
    unfold splitDots
    rw [hsplit]
    by_cases hc : c = '.'
    · refine ⟨[], p :: ps, by simp [hc], by simp [hc], by simp, ?_⟩
      rw [List.getLast?_cons, hlast]
      by_cases hdot : '.' ∈ cs
      · simp [hdot]
      · have hps : ps = [] := hiff.2 hdot
        have hpcs : p = cs := hp hps
        subst hps
        simp at hlast
        simp [hdot, hc, hlast]
        rw [← hlast, hpcs]
    · refine ⟨c :: p, ps, by simp [hc], ?_, ?_, ?_⟩
      · rw [hiff]
        simp [hc, Ne.symm hc]
      · intro hps
        rw [hp hps]
      · by_cases hdot : '.' ∈ cs
        · have hps : ps ≠ [] := fun h => (hiff.1 h) hdot
          rw [if_pos hdot, ← hlast]
          cases ps with
          | nil => exact absurd rfl hps
          | cons q qs => simp [List.getLast?_cons]
        · have hps : ps = [] := hiff.2 hdot
          have hpcs : p = cs := hp hps
          subst hps
          simp [hdot, hc, hpcs]

/-- The function `getLastPart` never fails, and on the full name of a field it
computes the field's `Name()`. -/
theorem getLastPart_FullName (fd : Field) : getLastPart fd.FullName = (fd.Name, none) := by
  obtain ⟨p, ps, hsplit, _, _, hlast⟩ := splitDots_spec fd.FullName.data
  unfold getLastPart Field.Name
  simp only [hsplit]
  rw [List.getLast?_eq_getElem?] at hlast
  have hlen : ¬ (p :: ps).length < 1 := by simp
  rw [if_neg hlen, List.getD_eq_getElem?_getD, hlast]
  rfl

theorem fieldNames_eq (m : Message) : fieldNames m = (m.filter Field.populated).map Field.Name := by
  unfold fieldNames Message.Range
  induction m.filter Field.populated with
  | nil => rfl
  | cons f fs ih =>
    rw [List.filterMap_cons, getLastPart_FullName]
    simp only [List.map_cons, ih]

/-! ## The field loop on a message with distinct field names -/

theorem ByName_of_mem :
    ∀ (m : Message) (f : Field), (m.map Field.Name).Nodup → f ∈ m →
      m.ByName f.Name = some f := by
  intro m
  induction m with
  | nil => intro f _ hf; cases hf
  | cons g gs ih =>
    intro f hU hf
    rw [List.map_cons, List.nodup_cons] at hU
    unfold Message.ByName
    rw [List.find?_cons]
    by_cases hg : g.Name = f.Name
    · have hgf : f = g := by
        rcases List.mem_cons.1 hf with h | h
        · exact h
        · exact absurd (hg ▸ List.mem_map_of_mem Field.Name h) hU.1
      have hb : (g.Name == f.Name) = true := by simpa using hg
      rw [hb, hgf]
    · have hb : (g.Name == f.Name) = false := by simpa using hg
      rw [hb]
      rcases List.mem_cons.1 hf with h | h
      · exact absurd (h ▸ rfl) hg
      · exact ih f hU.2 h

theorem replace_self :
    ∀ (m : Message) (f : Field), (m.map Field.Name).Nodup → f ∈ m →
      m.replace f.Name f = m := by
  intro m f hU hf
  unfold Message.replace
  conv_rhs => rw [← List.map_id m]
  apply List.map_congr_left
  intro g hg
  by_cases hn : g.Name = f.Name
  · rw [if_pos hn]
    exact (List.inj_on_of_nodup_map hU hg hf hn).symm
  · rw [if_neg hn]
    rfl

theorem replace_absent (m : Message) (name : String) (f : Field)
    (h : name ∉ m.map Field.Name) : m.replace name f = m := by
  unfold Message.replace
  conv_rhs => rw [← List.map_id m]
  apply List.map_congr_left
  intro g hg
  have hn : g.Name ≠ name := fun hn => h (hn ▸ List.mem_map_of_mem Field.Name hg)
  rw [if_neg hn]
  rfl

theorem Set_eq_replace (v : Value) :
    ∀ (m : Message) (f : Field), (m.map Field.Name).Nodup → f ∈ m →
      m.Set f v = m.replace f.Name { f with value := v, isSet := true } := by
  intro m
  induction m with
  | nil => intro f _ hf; cases hf
  | cons g gs ih =>
    intro f hU hf
    rw [List.map_cons, List.nodup_cons] at hU
    unfold Message.Set
    by_cases hg : g.Name = f.Name
    · have hgf : f = g := by
        rcases List.mem_cons.1 hf with h | h
        · exact h
        · exact absurd (hg ▸ List.mem_map_of_mem Field.Name h) hU.1
      subst hgf
      have hrest := replace_absent gs f.Name { f with value := v, isSet := true } hU.1
      unfold Message.replace at hrest ⊢
      simp [hrest]
    · have hb : (g.Name == f.Name) = false := by simpa using hg
      rw [hb]
      rcases List.mem_cons.1 hf with h | h
      · exact absurd (h ▸ rfl) hg
      · have hih := ih f hU.2 h
        unfold Message.replace at hih ⊢
        simp [hg, hih]

theorem slice_zero {text : GoString} {n : Nat} (h : n ≤ text.length) :
    slice text 0 n = some (text.take n) := by
  unfold slice
  simp [h]

theorem minimizeField_Name (policy : Policy) (rnd : Rand) (f : Field) :
    (minimizeField policy rnd f).Name = f.Name := by
  unfold minimizeField
  split
  · rfl
  · rfl
  · rfl
  · split <;> rfl

/-- One turn of the loop on the name of a field of the message: the field is
replaced by its minimized form, and no random number is drawn when the name is
not in Noised. -/
theorem processField_minimizes (claims : CustomClaims) (rnd : Rand) (m : Message) (f : Field)
    (hU : (m.map Field.Name).Nodup) (hf : f ∈ m)
    (hN : contains claims.Policy.Noised f.Name = false)
    (hB : ∀ text, f.value = .String text →
      (resolve f.Name claims.Policy = .Generalized → 1 ≤ text.length) ∧
        (resolve f.Name claims.Policy = .Reduced → 3 ≤ text.length))
    (hL : ∀ kind payload, f.value = .List kind payload →
      kind = .Int32Kind ∨ kind = .StringKind → contains claims.Policy.Allowed f.Name = true) :
    processField claims rnd m f.Name =
      some (m.replace f.Name (minimizeField claims.Policy rnd f), rnd) := by
  have hb := ByName_of_mem m f hU hf
  have hset := fun v => Set_eq_replace v m f hU hf
  have hid := replace_self m f hU hf
  unfold resolve at hB
  unfold processField minimizeField resolve
  cases hA : contains claims.Policy.Allowed f.Name
  · have hO : ∀ kind payload, f.value = .List kind payload → ∃ o, kind = .Other o := by
      intro kind payload hv
      cases kind with
      | Int32Kind => have := hL _ payload hv (Or.inl rfl); rw [hA] at this; cases this
      | StringKind => have := hL _ payload hv (Or.inr rfl); rw [hA] at this; cases this
      | Other o => exact ⟨o, rfl⟩
    cases hG : contains claims.Policy.Generalized f.Name
    · cases hR : contains claims.Policy.Reduced f.Name
      · cases hv : f.value with
        | Int32 n =>
          simp [List.find?, hA, hG, hN, hR, hv, suppressField, hb, hset, hid, transform]
        | Other k payload =>
          simp [List.find?, hA, hG, hN, hR, hv, suppressField, hb, hset, hid, transform]
        | String text =>
          simp [List.find?, hA, hG, hN, hR, hv, suppressField, hb, hset, hid, transform]
        | List kind payload =>
          obtain ⟨o, rfl⟩ := hO kind payload hv
          simp [List.find?, hA, hG, hN, hR, hv, suppressField, hb, hid]
      · cases hv : f.value with
        | Int32 n => simp [List.find?, hA, hG, hN, hR, hv, reduceField, hb, hset, hid, transform]
        | Other k payload =>
          simp [List.find?, hA, hG, hN, hR, hv, reduceField, hb, hset, hid, transform]
        | String text =>
          have h3 : 3 ≤ text.length := by
            have := (hB text hv).2
            simpa [List.find?, hA, hG, hN, hR] using this
          simp [List.find?, hA, hG, hN, hR, hv, reduceField, hb, hset, hid, transform,
            reduceString, slice_zero h3]
        | List kind payload =>
          obtain ⟨o, rfl⟩ := hO kind payload hv
          simp [List.find?, hA, hG, hN, hR, hv, reduceField, hb, hid]
    · cases hv : f.value with
      | Int32 n => simp [List.find?, hA, hG, hv, generalizeField, hb, hset, hid, transform]
      | Other k payload =>
        simp [List.find?, hA, hG, hv, generalizeField, hb, hset, hid, transform]
      | String text =>
        have h1 : 1 ≤ text.length := by
          have := (hB text hv).1
          simpa [List.find?, hA, hG] using this
        simp [List.find?, hA, hG, hv, generalizeField, hb, hset, hid, transform,
          generalizeString, slice_zero h1]
      | List kind payload =>
        obtain ⟨o, rfl⟩ := hO kind payload hv
        simp [List.find?, hA, hG, hv, generalizeField, hb, hid]
  · simp [List.find?, hA, hid]

theorem replace_names (m : Message) (f f' : Field) (h : f'.Name = f.Name) :
    (m.replace f.Name f').map Field.Name = m.map Field.Name := by
  unfold Message.replace
  rw [List.map_map]
  apply List.map_congr_left
  intro g _
  by_cases hn : g.Name = f.Name
  · simp [hn, h]
  · simp [hn]

theorem mem_replace_of_ne (m : Message) (name : String) (f' r : Field) (hr : r ∈ m)
    (hn : r.Name ≠ name) : r ∈ m.replace name f' := by
  unfold Message.replace
  exact List.mem_map.2 ⟨r, hr, by rw [if_neg hn]⟩

/-- The loop over the names of distinct fields of the message, none of them
noised, every string long enough for its slice and every repeated `int32` or
string field allowed: the loop runs to its end and leaves every walked field
minimized and every other field as it was. -/
theorem walkFields_minimizes (claims : CustomClaims) (rnd : Rand) :
    ∀ (fs : List Field) (m : Message), (m.map Field.Name).Nodup → (fs.map Field.Name).Nodup →
      (∀ f ∈ fs, f ∈ m ∧ contains claims.Policy.Noised f.Name = false ∧
        (∀ text, f.value = .String text →
          (resolve f.Name claims.Policy = .Generalized → 1 ≤ text.length) ∧
            (resolve f.Name claims.Policy = .Reduced → 3 ≤ text.length)) ∧
        (∀ kind payload, f.value = .List kind payload →
          kind = .Int32Kind ∨ kind = .StringKind →
            contains claims.Policy.Allowed f.Name = true)) →
      walkFields claims (fs.map Field.Name) rnd m =
        (true, m.map fun g =>
          if g.Name ∈ fs.map Field.Name then minimizeField claims.Policy rnd g else g) := by
  intro fs
  induction fs with
  | nil =>
    intro m _ _ _
    simp [walkFields]
  | cons f rest ih =>
    intro m hU hfs hall
    obtain ⟨hfm, hfN, hfB, hfL⟩ := hall f (List.mem_cons_self f rest)
    rw [List.map_cons, List.nodup_cons] at hfs
    rw [List.map_cons]
    unfold walkFields
    rw [processField_minimizes claims rnd m f hU hfm hfN hfB hfL]
    simp only
    have hname := minimizeField_Name claims.Policy rnd f
    rw [ih (m.replace f.Name (minimizeField claims.Policy rnd f))
      (by rw [replace_names m f _ hname]; exact hU) hfs.2]
    · congr 1
      unfold Message.replace
      rw [List.map_map]
      apply List.map_congr_left
      intro g hg
      simp only [Function.comp]
      by_cases hn : g.Name = f.Name
      · have hgf : g = f := List.inj_on_of_nodup_map hU hg hfm hn
        subst hgf
        rw [if_pos rfl, hname, if_neg hfs.1]
        simp
      · rw [if_neg hn]
        simp [hn]
    · intro r hr
      obtain ⟨hrm, hrN, hrB, hrL⟩ := hall r (List.mem_cons_of_mem f hr)
      have hne : r.Name ≠ f.Name := by
        intro h
        exact hfs.1 (h ▸ List.mem_map_of_mem Field.Name hr)
      exact ⟨mem_replace_of_ne m f.Name _ r hrm hne, hrN, hrB, hrL⟩

/-! ## C3: end to end -/

/-- C3, as stated, fails on fields the loop does not transform. An `int32` field
without explicit presence that holds 0 is not populated, so `Range` does not
report it and it is still 0 after the call, although its name resolves to
Suppressed, whose transform of 0 is -1. An integer field of another kind, here an
`int64` field holding 7, is reported but matches neither `case Int32Kind` nor
`case StringKind`, so it is still 7 after the call, although its name resolves to
Suppressed. And on a populated repeated `int32` field that the policy does not
allow the call does not return: it panics. -/
theorem skipped_fields_counterexample :
    interceptor ⟨parseOk ⟨addressPolicy, ⟨"test", 0⟩⟩, 0, fun _ => 0⟩ ctxToken .Nil
        (handlerOk (.Message [⟨"main.Address.floor", false, false, .Int32 0⟩])) =
      ⟨.Return (.Message [⟨"main.Address.floor", false, false, .Int32 0⟩]) none,
        .Message [⟨"main.Address.floor", false, false, .Int32 0⟩]⟩ ∧
    addressPolicy.Noised = [] ∧
    resolve "floor" addressPolicy = .Suppressed ∧
    transform (fun _ => 0) .Suppressed (.Int32 0) = some (.Int32 (-1)) ∧
    interceptor ⟨parseOk ⟨addressPolicy, ⟨"test", 0⟩⟩, 0, fun _ => 0⟩ ctxToken .Nil
        (handlerOk (.Message populationMsg)) =
      ⟨.Return (.Message populationMsg) none, .Message populationMsg⟩ ∧
    populationMsg = [⟨"main.Address.population", false, false, .Other .Int64Kind [7]⟩] ∧
    resolve "population" addressPolicy = .Suppressed ∧
    interceptor ⟨parseOk ⟨addressPolicy, ⟨"test", 0⟩⟩, 0, fun _ => 0⟩ ctxToken .Nil
        (handlerOk (.Message floorsMsg)) =
      ⟨.Panic, .Message floorsMsg⟩ := by
  decide

/-- C3, amended: end to end, for every message whose top-level fields are
declared by its type (no extension fields) under distinct names, and every policy
with an empty Noised map carried by a present credential that decodes to claims:
when every populated repeated `int32` or string field is named in Allowed, every
populated singular string field that resolves to Generalized has at least 1 byte
and every one that resolves to Reduced has at least 3 bytes, the interceptor
returns the message in which each populated singular `int32` or string field
(set, for a field with explicit presence; non-zero, for a field without) holds
the transform of its resolved disposition applied to its original value, written
back as `int32` or string, and every other field (unpopulated, repeated, or of
another kind such as `int64` or bool) is as it was. -/
theorem interceptor_minimizes (env : Env) (ctx : Context) (req : Any)
    (handler : Context → Any → Any × Option GoError) (msg : Message) (claims : CustomClaims)
    (hh : handler ctx req = (.Message msg, none)) (hc : carriesClaims env ctx claims)
    (hN : claims.Policy.Noised = []) (hU : (msg.map Field.Name).Nodup)
    (hB : ∀ f ∈ msg, f.populated = true → ∀ text, f.value = .String text →
      (resolve f.Name claims.Policy = .Generalized → 1 ≤ text.length) ∧
        (resolve f.Name claims.Policy = .Reduced → 3 ≤ text.length))
    (hL : ∀ f ∈ msg, f.populated = true → ∀ kind payload, f.value = .List kind payload →
      kind = .Int32Kind ∨ kind = .StringKind → contains claims.Policy.Allowed f.Name = true) :
    interceptor env ctx req handler =
      ⟨.Return (.Message (msg.map fun f =>
          if f.populated = true then minimizeField claims.Policy env.rand f else f)) none,
        .Message (msg.map fun f =>
          if f.populated = true then minimizeField claims.Policy env.rand f else f)⟩ := by
  have hsub : ((msg.filter Field.populated).map Field.Name).Nodup :=
    List.Nodup.sublist ((List.filter_sublist msg).map Field.Name) hU
  have hwalk := walkFields_minimizes claims env.rand (msg.filter Field.populated) msg hU hsub
    (by
      intro f hf
      have hfm := List.mem_filter.1 hf
      exact ⟨hfm.1, by rw [hN]; rfl, hB f hfm.1 hfm.2, hL f hfm.1 hfm.2⟩)
  have hmap : (msg.map fun g =>
        if g.Name ∈ (msg.filter Field.populated).map Field.Name
        then minimizeField claims.Policy env.rand g else g) =
      msg.map fun f =>
        if f.populated = true then minimizeField claims.Policy env.rand f else f := by
    apply List.map_congr_left
    intro g hg
    by_cases hp : g.populated = true
    · rw [if_pos hp, if_pos (List.mem_map_of_mem Field.Name (List.mem_filter.2 ⟨hg, hp⟩))]
    · rw [if_neg hp, if_neg]
      intro hmem
      obtain ⟨g', hg', hn⟩ := List.mem_map.1 hmem
      have hg'm := List.mem_filter.1 hg'
      have : g' = g := List.inj_on_of_nodup_map hU hg'm.1 hg hn
      exact hp (this ▸ hg'm.2)
  rw [interceptor_message env ctx req handler msg claims hh hc, fieldNames_eq, hwalk, hmap]
  simp

/-- C3, witness: the end-to-end example of the specification: the message
{houseNumber: 135, street: "Baker Street", city: "London"} under allowed={},
generalized={houseNumber}, noised={}, reduced={street} comes back as
{houseNumber: 131, street: "Bak", city: ""}. -/
theorem interceptor_minimizes_witness :
    interceptor ⟨parseOk ⟨addressPolicy, ⟨"test", 0⟩⟩, 0, fun _ => 0⟩ ctxToken .Nil
        (handlerOk (.Message addressMsg)) =
      ⟨.Return (.Message addressMin) none, .Message addressMin⟩ ∧
    addressMin = addressMsg.map (fun f =>
      if f.populated = true then minimizeField addressPolicy (fun _ => 0) f else f) :=
  ⟨interceptor_minimizes ⟨parseOk ⟨addressPolicy, ⟨"test", 0⟩⟩, 0, fun _ => 0⟩ ctxToken .Nil
      (handlerOk (.Message addressMsg)) addressMsg ⟨addressPolicy, ⟨"test", 0⟩⟩ rfl
      ⟨"token", ⟨true, some ⟨addressPolicy, ⟨"test", 0⟩⟩⟩, by decide, rfl, rfl⟩
      rfl (by decide)
      (by
        intro f hf _ text hv
        simp only [addressMsg, List.mem_cons, List.mem_singleton, List.not_mem_nil,
          or_false] at hf
        rcases hf with rfl | rfl | rfl
        · cases hv
        · cases hv; decide
        · cases hv; decide)
      (by
        intro f hf _ kind payload hv
        simp only [addressMsg, List.mem_cons, List.mem_singleton, List.not_mem_nil,
          or_false] at hf
        rcases hf with rfl | rfl | rfl <;> cases hv),
    by decide⟩

/-! ## C11: noiseInt on a non-positive number -/

/-- C11: the code at the failing inputs. For every random source `noiseInt(-1)` and
`noiseInt(0)` panic in `rand.Int63n`, which rejects a bound that is not positive;
so does the interceptor on a message whose houseNumber is -1 when the policy asks
to noise it. In general `noiseInt(x)` panics for every `x ≤ 0`. -/
theorem noiseInt_nonpositive_panics (rnd : Rand) :
    noiseInt rnd (-1) = none ∧ noiseInt rnd 0 = none ∧
      interceptor ⟨parseOk ⟨noisePolicy, ⟨"test", 0⟩⟩, 0, rnd⟩ ctxToken .Nil
          (handlerOk (.Message (houseMsg (-1)))) =
        ⟨.Panic, .Message (houseMsg (-1))⟩ ∧
      ∀ x : Int, x ≤ 0 → noiseInt rnd x = none := by
  refine ⟨rfl, rfl, rfl, ?_⟩
  intro x hx
  unfold noiseInt Int63n
  rw [if_pos hx]

/-! ## C12: reduceString on a short string -/

/-- C12: the code at the failing inputs. The slice `text[0:3]` of `reduceString` is
out of range on the empty string and on "ab", a run-time panic, and so is the
interceptor's end on a message whose street is "ab" when the policy asks to reduce
it. In general `reduceString` panics on every string of fewer than 3 bytes. -/
theorem reduceString_short_panics :
    reduceString [] = none ∧ reduceString (utf8 "ab") = none ∧
      interceptor ⟨parseOk ⟨reduceStreet, ⟨"test", 0⟩⟩, 0, fun _ => 0⟩ ctxToken .Nil
          (handlerOk (.Message (streetMsg false (utf8 "ab")))) =
        ⟨.Panic, .Message (streetMsg false (utf8 "ab"))⟩ ∧
      ∀ text : GoString, text.length < 3 → reduceString text = none := by
  refine ⟨by decide, by decide, by decide, ?_⟩
  intro text h
  unfold reduceString slice
  rw [if_neg (by omega)]

/-! ## C15: suppression -/

/-- C15: for every integer `x`, `suppressInt(x)` is -1, and for every string `s`,
`suppressString(s)` is the empty string. -/
theorem suppress_constant :
    (∀ x : Int, suppressInt x = -1) ∧ (∀ s : GoString, suppressString s = []) :=
  ⟨fun _ => rfl, fun _ => rfl⟩

/-! ## C16: noiseString -/

/-- C16: for every string `s`, the empty string and strings shorter than any slice
length included, `noiseString(s)` does not fail and returns the empty string; and
the interceptor, asked to noise a string field, writes the empty string and does
not panic, whatever the field holds. -/
theorem noiseString_empty (s : GoString) :
    noiseString s = [] ∧ noiseString [] = [] ∧ noiseString (utf8 "ab") = [] ∧
      ∀ (rnd : Rand) (presence : Bool),
        noiseField rnd (streetMsg presence s) "street" =
          some (streetMsg presence [], rnd) := by
  refine ⟨rfl, rfl, rfl, ?_⟩
  intro rnd presence
  have hn : (Field.Name ⟨"main.Address.street", presence, true, .String s⟩ == "street") = true := by
    simp only [Field.Name]
    decide
  simp [noiseField, streetMsg, Message.ByName, List.find?, hn, Message.Set, noiseString]

/-! ## C17: generalizeString on the empty string -/

/-- C17: the code at the failing input. The slice `text[0:1]` of `generalizeString`
is out of range on the empty string, a run-time panic; and the interceptor panics
on a message whose street field has explicit presence and is set to the empty
string when the policy asks to generalize it. -/
theorem generalizeString_empty_panics :
    generalizeString [] = none ∧
      interceptor ⟨parseOk ⟨generalizeStreet, ⟨"test", 0⟩⟩, 0, fun _ => 0⟩ ctxToken .Nil
          (handlerOk (.Message (streetMsg true []))) =
        ⟨.Panic, .Message (streetMsg true [])⟩ := by
  decide

/-! ## C13: reduceString on a string of three or more -/

/-- On a string of at least 3 bytes, `reduceString` returns its first 3 bytes. -/
theorem reduceString_take {text : GoString} (h : 3 ≤ text.length) :
    reduceString text = some (text.take 3) :=
  slice_zero h

/-- The encoding of a single-byte character is that one byte. -/
theorem utf8Char_ascii {c : Char} (h : c.toNat < 128) : utf8Char c = [c.toNat.toUInt8] := by
  unfold utf8Char
  simp [h]

/-- C13: the code at the failing inputs. The slice `text[0:3]` takes bytes, not
characters. "äbc" has 3 characters, yet `reduceString("äbc")` is the 3 bytes of
"äb", not the prefix "äbc" made of the first 3 characters. And "abä", whose first
3 characters are the whole string, is cut inside its last character:
`reduceString("abä")` is the bytes 61 62 C3, which end in half a character and are
not valid UTF-8. On "Baker Street" the result is "Bak". -/
theorem reduceString_first_bytes :
    "äbc".length = 3 ∧ reduceString (utf8 "äbc") = some (utf8 "äb") ∧
      reduceString (utf8 "äbc") ≠ some (utf8 (String.mk ("äbc".data.take 3))) ∧
      "abä".length = 3 ∧ utf8 "abä" = [0x61, 0x62, 0xC3, 0xA4] ∧
      reduceString (utf8 "abä") = some [0x61, 0x62, 0xC3] ∧
      reduceString (utf8 "abä") ≠ some (utf8 (String.mk ("abä".data.take 3))) ∧
      reduceString (utf8 "Baker Street") = some (utf8 "Bak") := by
  decide

/-- Where the code agrees with C13: for every string `s` of at least 3 characters
whose first 3 characters are single-byte (ASCII) characters, `reduceString(s)` is
the prefix of `s` made of its first 3 characters, so it has length 3 and `s`
starts with it; in particular `reduceString("Baker Street") = "Bak"`. -/
theorem reduceString_ascii_first3 (s : String) (h3 : 3 ≤ s.length)
    (hascii : ∀ c ∈ s.data.take 3, c.toNat < 128) :
    reduceString (utf8 s) = some (utf8 (String.mk (s.data.take 3))) ∧
      (utf8 (String.mk (s.data.take 3))).length = 3 ∧
      (∃ rest, utf8 s = utf8 (String.mk (s.data.take 3)) ++ rest) ∧
      reduceString (utf8 "Baker Street") = some (utf8 "Bak") := by
  obtain ⟨cs⟩ := s
  match cs, h3, hascii with
  | c1 :: c2 :: c3 :: rest, _, hascii =>
    have h1 := utf8Char_ascii (hascii c1 (by simp))
    have h2 := utf8Char_ascii (hascii c2 (by simp))
    have h3 := utf8Char_ascii (hascii c3 (by simp))
    refine ⟨?_, ?_, ⟨rest.flatMap utf8Char, ?_⟩, by decide⟩
    · rw [reduceString_take (by simp [utf8, h1, h2, h3])]
      simp [utf8, h1, h2, h3]
    · simp [utf8, h1, h2, h3]
    · simp [utf8, h1, h2, h3]

/-- The single-byte case of C13 at "Baker Street". -/
theorem reduceString_ascii_first3_witness :
    3 ≤ "Baker Street".length ∧
      reduceString (utf8 "Baker Street") =
        some (utf8 (String.mk ("Baker Street".data.take 3))) :=
  ⟨by decide, (reduceString_ascii_first3 "Baker Street" (by decide) (by decide)).1⟩

/-! ## C14: generalizeString on a non-empty string -/

/-- C14: the code at the failing input. The first character of "Évry" is É, two
bytes in UTF-8; `generalizeString("Évry")` is the slice `text[0:1]`, the single
byte 0xC3, which is not the string "É" (and not a character at all). On "Baker
Street", whose first character is a single byte, the result is "B". -/
theorem generalizeString_first_byte :
    generalizeString (utf8 "Évry") = some [0xC3] ∧ utf8 "É" = [0xC3, 0x89] ∧
      generalizeString (utf8 "Évry") ≠ some (utf8 "É") ∧
      generalizeString (utf8 "Baker Street") = some (utf8 "B") := by
  decide

/-! ## C18: the range of noiseInt -/

/-- For a positive bound, `rand.Int63n` returns the next draw reduced into
`[0, n)`. -/
theorem Int63n_pos (rnd : Rand) {n : Int} (h : 0 < n) :
    Int63n rnd n = some ((rnd 0 : Int) % n, fun k => rnd (k + 1)) := by
  unfold Int63n
  rw [if_neg (by omega)]

/-- C18, as stated, fails where the sum leaves the integer type. In `int64`:
`noiseInt(2^63 - 1)` with draws 0 and 2^63 - 2 is -3. In the `int32` field the
value is written back to: a houseNumber of 2^31 - 1 with draws 0 and 2^31 - 2 is
noised to 2^32 - 3 by `noiseInt` and stored as -3. -/
theorem noiseInt_overflow_counterexample :
    (noiseInt (draws 0 9223372036854775806) 9223372036854775807).map Prod.fst = some (-3) ∧
      (noiseInt (draws 0 2147483646) 2147483647).map Prod.fst = some 4294967293 ∧
      interceptor ⟨parseOk ⟨noisePolicy, ⟨"test", 0⟩⟩, 0, draws 0 2147483646⟩ ctxToken .Nil
          (handlerOk (.Message (houseMsg 2147483647))) =
        ⟨.Return (.Message [⟨"main.Address.houseNumber", false, true, .Int32 (-3)⟩]) none,
          .Message [⟨"main.Address.houseNumber", false, true, .Int32 (-3)⟩]⟩ := by
  decide

/-- C18, amended: for every `int64` value `x` with `0 < x ≤ 2^62` (every positive
value of an `int32` field is one) and every pair of draws `a`, `b` with
`0 ≤ a < x` and `0 ≤ b < x`, the value `x − a + b` that `noiseInt` computes in
`int64` lies in `[1, 2x − 1]`, and `noiseInt` returns it for the two draws of the
random source; hence `noiseInt` never turns such an input into zero, a negative
number or -1; and when `x ≤ 2^30` the value is written back to the `int32` field
as it is. -/
theorem noiseInt_range (rnd : Rand) (x : Int) (hpos : 0 < x) (hmax : x ≤ 2 ^ 62) :
    (∀ a b : Int, 0 ≤ a → a < x → 0 ≤ b → b < x →
        wrapInt64 (wrapInt64 (x - a) + b) = x - a + b ∧
          1 ≤ x - a + b ∧ x - a + b ≤ 2 * x - 1 ∧
          (x ≤ 2 ^ 30 → wrapInt32 (x - a + b) = x - a + b)) ∧
      0 ≤ (rnd 0 : Int) % x ∧ (rnd 0 : Int) % x < x ∧
      0 ≤ (rnd 1 : Int) % x ∧ (rnd 1 : Int) % x < x ∧
      noiseInt rnd x =
        some (x - (rnd 0 : Int) % x + (rnd 1 : Int) % x, fun k => rnd (k + 1 + 1)) := by
  have key : ∀ a b : Int, 0 ≤ a → a < x → 0 ≤ b → b < x →
      wrapInt64 (wrapInt64 (x - a) + b) = x - a + b := by
    intro a b ha ha' hb hb'
    unfold wrapInt64
    omega
  have ha0 := Int.emod_nonneg (rnd 0 : Int) (by omega : x ≠ 0)
  have ha1 := Int.emod_lt_of_pos (rnd 0 : Int) hpos
  have hb0 := Int.emod_nonneg (rnd 1 : Int) (by omega : x ≠ 0)
  have hb1 := Int.emod_lt_of_pos (rnd 1 : Int) hpos
  refine ⟨?_, ha0, ha1, hb0, hb1, ?_⟩
  · intro a b ha ha' hb hb'
    refine ⟨key a b ha ha' hb hb', by omega, by omega, ?_⟩
    intro h30
    unfold wrapInt32
    omega
  · unfold noiseInt
    rw [Int63n_pos rnd hpos]
    simp only
    rw [Int63n_pos _ hpos]
    simp only [Nat.zero_add, key _ _ ha0 ha1 hb0 hb1]

/-- C18, witness: houseNumber 135 with draws 100 and 7. -/
theorem noiseInt_range_witness :
    (0 : Int) < 135 ∧ (135 : Int) ≤ 2 ^ 62 ∧
      noiseInt (draws 100 7) 135 =
        some (135 - ((draws 100 7 0 : Nat) : Int) % 135 + ((draws 100 7 1 : Nat) : Int) % 135,
          fun k => draws 100 7 (k + 1 + 1)) ∧
      (135 : Int) - 100 + 7 = 42 :=
  ⟨by decide, by decide,
    (noiseInt_range (draws 100 7) 135 (by decide) (by decide)).2.2.2.2.2, by decide⟩

/-! ## C19: generalizeInt twice -/

/-- C19: for every `int64` value `x ≥ 0`, generalizing an already generalized value
does not change it: `generalizeInt(generalizeInt(x)) = generalizeInt(x)`. -/
theorem generalizeInt_idempotent (x : Int) (h0 : 0 ≤ x) (hx : isInt64 x) :
    generalizeInt (generalizeInt x) = generalizeInt x := by
  have h1 := generalizeInt_eq hx
  have ht := tdiv_ten x
  rw [if_pos (Or.inl h0)] at ht
  have hg : generalizeInt x = x / 10 * 10 + 1 := by rw [h1, ht]
  have hx' := hx
  unfold isInt64 at hx'
  have hgx : isInt64 (generalizeInt x) := by
    unfold isInt64
    rw [hg]
    omega
  have h2 := generalizeInt_eq hgx
  have ht2 := tdiv_ten (generalizeInt x)
  rw [if_pos (Or.inl (by rw [hg]; omega))] at ht2
  rw [h2, ht2, hg]
  omega

/-- C19, witness: 135 is generalized to 131, and 131 to itself. -/
theorem generalizeInt_idempotent_witness :
    (0 : Int) ≤ 135 ∧ isInt64 135 ∧ generalizeInt (generalizeInt 135) = generalizeInt 135 ∧
      generalizeInt 135 = 131 :=
  ⟨by decide, by decide, generalizeInt_idempotent 135 (by decide) (by decide), by decide⟩

/-! ## C20: the integer transforms stay in the range of the field -/

/-- C20: for every `x` in the signed 32-bit range, `generalizeInt(x)` and
`reduceInt(x)` are in the signed 32-bit range again, so the conversion to `int32`
on writing the result back to the field leaves it as it is: no overflow, no
wrap. -/
theorem int_transforms_fit_int32 (x : Int) (hx : isInt32 x) :
    isInt32 (generalizeInt x) ∧ isInt32 (reduceInt x) ∧
      wrapInt32 (generalizeInt x) = generalizeInt x ∧
      wrapInt32 (reduceInt x) = reduceInt x := by
  have hx' := hx
  unfold isInt32 at hx'
  have h64 : isInt64 x := by
    unfold isInt64
    omega
  have ht := tdiv_ten x
  have hg : isInt32 (generalizeInt x) := by
    rw [generalizeInt_eq h64]
    unfold isInt32
    split at ht <;> omega
  have hr : isInt32 (reduceInt x) := by
    rw [reduceInt_eq h64]
    unfold isInt32
    split at ht <;> omega
  exact ⟨hg, hr, wrapInt32_of_isInt32 hg, wrapInt32_of_isInt32 hr⟩

/-- C20, witness: the largest `int32` value. -/
theorem int_transforms_fit_int32_witness :
    isInt32 2147483647 ∧ isInt32 (generalizeInt 2147483647) ∧
      isInt32 (reduceInt 2147483647) ∧ generalizeInt 2147483647 = 2147483641 :=
  ⟨by decide, (int_transforms_fit_int32 2147483647 (by decide)).1,
    (int_transforms_fit_int32 2147483647 (by decide)).2.1, by decide⟩

end Purposelimiter
